import Mathlib

/-
  Verification development for the `rust_goap` GOAP (Goal-Oriented Action
  Planning) engine.

  The Rust source is shallowly embedded: Rust 64-bit signed integers are
  `Int` with two's-complement wrapping made explicit through `wrap64`
  (release-mode overflow semantics), Rust `f64` is abstracted by the exact
  rationals `Rat` (the claims under study do not depend on rounding or NaN),
  `usize` costs are `Nat`, `BTreeMap<String, _>` is a list of pairs kept
  sorted by the UTF-8 lexicographic string order, and every Rust code path
  that can panic is an `Option`/sum result whose `none`-like case marks the
  panic.
-/

namespace Goap

/-- Two's-complement wrapping of an unbounded integer into the `i64` range
`[-2^63, 2^63)`; models release-mode overflow of Rust `i64` arithmetic. -/
def wrap64 (x : Int) : Int :=
  (x + 9223372036854775808) % 18446744073709551616 - 9223372036854775808

/-- Lexicographic order on code-point lists, mirroring Rust's `Ord` for
`String` (UTF-8 byte order coincides with code-point order). -/
def strLtAux : List Char → List Char → Bool
  | [], [] => false
  | [], _ :: _ => true
  | _ :: _, [] => false
  | c :: cs, d :: ds =>
    c.toNat < d.toNat || (c.toNat == d.toNat && strLtAux cs ds)

/-- Rust `String` ordering used by `BTreeMap`. -/
def strLt (a b : String) : Bool := strLtAux a.data b.data

/-- `Value` from `src/basic/value.rs`: tagged scalar, `Bool` / `I64` / `F64`.
`F64` carries an exact rational abstracting the IEEE double. -/
inductive Value where
  | Bool (b : Bool)
  | I64 (i : Int)
  | F64 (q : Rat)
deriving DecidableEq

/-- True when the two values carry the same tag (same Rust enum variant). -/
def sameTag : Value → Value → Bool
  | .Bool _, .Bool _ => true
  | .I64 _, .I64 _ => true
  | .F64 _, .F64 _ => true
  | _, _ => false

/-- Discriminant of a `Value` in declaration order (`Bool` = 0, `I64` = 1,
`F64` = 2); Rust's derived `PartialOrd` orders different variants by it. -/
def discr : Value → Nat
  | .Bool _ => 0
  | .I64 _ => 1
  | .F64 _ => 2

/-- The strict `<` of the `#[derive(PartialOrd)]` on `Value`: same variant
compares the payloads, different variants compare discriminants. -/
def valueLt : Value → Value → Bool
  | .Bool a, .Bool b => !a && b
  | .I64 a, .I64 b => decide (a < b)
  | .F64 a, .F64 b => decide (a < b)
  | a, b => decide (discr a < discr b)

/-- The `<=` of the derived `PartialOrd` on `Value` (true when
`partial_cmp` is `Less` or `Equal`). -/
def valueLe : Value → Value → Bool
  | .Bool a, .Bool b => !a || b
  | .I64 a, .I64 b => decide (a ≤ b)
  | .F64 a, .F64 b => decide (a ≤ b)
  | a, b => decide (discr a < discr b)

/-- `Value::distance` from `src/basic/value.rs`: `none` models the panic on
a tag mismatch.  Integer subtraction wraps (`(lhs - rhs).unsigned_abs()`),
floats truncate toward zero with the saturating `as u64` cast. -/
def Value.distance : Value → Value → Option Nat
  | .Bool lhs, .Bool rhs => some (if lhs = rhs then 0 else 1)
  | .I64 lhs, .I64 rhs => some (wrap64 (lhs - rhs)).natAbs
  | .F64 lhs, .F64 rhs =>
      some (min (Rat.floor |lhs - rhs|).toNat 18446744073709551615)
  | _, _ => none

/-- `Add for Value` (used by `AddAssign` in mutation application): defined
only for `I64 + I64` and `F64 + F64`; `none` models the panic. -/
def Value.add : Value → Value → Option Value
  | .I64 a, .I64 b => some (.I64 (wrap64 (a + b)))
  | .F64 a, .F64 b => some (.F64 (a + b))
  | _, _ => none

/-- `Sub for Value`: defined only for `I64 - I64` and `F64 - F64`; `none`
models the panic. -/
def Value.sub : Value → Value → Option Value
  | .I64 a, .I64 b => some (.I64 (wrap64 (a - b)))
  | .F64 a, .F64 b => some (.F64 (a - b))
  | _, _ => none

/-- `Assert` from `src/basic/assert.rs`: a comparison bound to a target
value. -/
inductive Assert where
  | Equals (v : Value)
  | NotEquals (v : Value)
  | GreaterThan (v : Value)
  | GreaterThanEquals (v : Value)
  | LessThan (v : Value)
  | LessThanEquals (v : Value)
deriving DecidableEq

/-- `Assert::value`: the bound comparison value. -/
def Assert.value : Assert → Value
  | .Equals v | .NotEquals v | .GreaterThan v
  | .GreaterThanEquals v | .LessThan v | .LessThanEquals v => v

/-- `compare_values` from `src/basic/assert.rs`.  Equality is the manual
`PartialEq` (cross-tag never equal); the four orderings are the derived
`PartialOrd` (cross-tag ordered by discriminant), so the function is total:
no panic path exists in the source. -/
def compare_values (comparison : Assert) (value : Value) : Bool :=
  match comparison with
  | .Equals v => decide (value = v)
  | .NotEquals v => !decide (value = v)
  | .GreaterThanEquals v => valueLe v value
  | .LessThan v => valueLt value v
  | .GreaterThan v => valueLt v value
  | .LessThanEquals v => valueLe value v

/-- `Mutation` from `src/basic/mutation.rs`. -/
inductive Mutation where
  | Set (key : String) (value : Value)
  | Delete (key : String)
  | Increment (key : String) (value : Value)
  | Decrement (key : String) (value : Value)
deriving DecidableEq

/-- The target variable name of a mutation. -/
def Mutation.key : Mutation → String
  | .Set k _ => k
  | .Delete k => k
  | .Increment k _ => k
  | .Decrement k _ => k

/-- True when two mutations have the same operation kind and the same
payload value, the target keys being ignored. -/
def Mutation.sameOp : Mutation → Mutation → Bool
  | .Set _ v, .Set _ w => decide (v = w)
  | .Delete _, .Delete _ => true
  | .Increment _ v, .Increment _ w => decide (v = w)
  | .Decrement _ v, .Decrement _ w => decide (v = w)
  | _, _ => false

/-- `WorldState` from `src/world_state.rs`: a `BTreeMap<String, Value>`,
embedded as a key-sorted association list. -/
structure WorldState where
  entries : List (String × Value)
deriving DecidableEq

/-- `BTreeMap::get`. -/
def lookupEntry : List (String × Value) → String → Option Value
  | [], _ => none
  | (k, v) :: rest, key => if k = key then some v else lookupEntry rest key

/-- `BTreeMap::insert`: sorted insert replacing an existing key. -/
def insertEntry (k : String) (v : Value) : List (String × Value) → List (String × Value)
  | [] => [(k, v)]
  | (k', v') :: rest =>
    if strLt k k' then (k, v) :: (k', v') :: rest
    else if k = k' then (k, v) :: rest
    else (k', v') :: insertEntry k v rest

/-- `BTreeMap::remove` (value discarded). -/
def eraseEntry (k : String) : List (String × Value) → List (String × Value)
  | [] => []
  | (k', v') :: rest => if k' = k then rest else (k', v') :: eraseEntry k rest

/-- `WorldState::get`. -/
def WorldState.get (ws : WorldState) (key : String) : Option Value :=
  lookupEntry ws.entries key

/-- `WorldState::set` (builder-style insert). -/
def WorldState.set (ws : WorldState) (key : String) (value : Value) : WorldState :=
  ⟨insertEntry key value ws.entries⟩

/-- `apply_mutator` from `src/basic/mutation.rs`.  `Set` inserts or
overwrites, `Delete` removes, `Increment`/`Decrement` update a present key
through `AddAssign`/`SubAssign` (whose panic on a tag mismatch is the
`none` case) and silently skip an absent key. -/
def apply_mutator (ws : WorldState) (mutator : Mutation) : Option WorldState :=
  match mutator with
  | .Set key value => some ⟨insertEntry key value ws.entries⟩
  | .Delete key => some ⟨eraseEntry key ws.entries⟩
  | .Increment key value =>
    match lookupEntry ws.entries key with
    | none => some ws
    | some current => (current.add value).map fun w => ⟨insertEntry key w ws.entries⟩
  | .Decrement key value =>
    match lookupEntry ws.entries key with
    | none => some ws
    | some current => (current.sub value).map fun w => ⟨insertEntry key w ws.entries⟩

/-- `Effect` from `src/effect.rs`: ordered mutations plus a `usize` cost. -/
structure Effect where
  mutations : List Mutation
  cost : Nat
deriving DecidableEq

/-- `Effect::with_mutation` from `src/effect.rs`: rebuilds the supplied
mutation with the supplied key and appends it. -/
def Effect.with_mutation (e : Effect) (key : String) (mutation : Mutation) : Effect :=
  let final_mutation :=
    match mutation with
    | .Set _ value => Mutation.Set key value
    | .Delete _ => Mutation.Delete key
    | .Increment _ value => Mutation.Increment key value
    | .Decrement _ value => Mutation.Decrement key value
  { e with mutations := e.mutations ++ [final_mutation] }

/-- In-order fold of an effect's mutations over a state (the loop bodies of
`successors` in `src/plan/planner.rs` and `Effect::apply_to`); `none`
propagates a mutation panic. -/
def applyMutations : WorldState → List Mutation → Option WorldState
  | ws, [] => some ws
  | ws, m :: rest =>
    match apply_mutator ws m with
    | none => none
    | some ws' => applyMutations ws' rest

/-- `Action` from `src/action.rs`. -/
structure Action where
  key : String
  preconditions : List (String × Assert)
  effect : Option Effect
deriving DecidableEq

/-- The short-circuiting `all` loop of `Action::check_preconditions`:
`none` models the panic raised when a scanned precondition's variable is
absent; `some false` is returned as soon as a precondition evaluates
false, later pairs never being looked at. -/
def checkPre (ws : WorldState) : List (String × Assert) → Option Bool
  | [] => some true
  | (key, compare) :: rest =>
    match lookupEntry ws.entries key with
    | none => none
    | some state_value =>
      if compare_values compare state_value then checkPre ws rest else some false

/-- `Action::check_preconditions` from `src/action.rs`. -/
def Action.check_preconditions (a : Action) (world_state : WorldState) : Option Bool :=
  checkPre world_state a.preconditions

/-- `Goal` from `src/goal.rs`: a `BTreeMap<String, Assert>` of
requirements, embedded as an association list. -/
structure Goal where
  requirements : List (String × Assert)
deriving DecidableEq

/-- `Goal::is_satisfied_by` from `src/goal.rs`: total, an absent key just
fails its requirement. -/
def Goal.is_satisfied_by (g : Goal) (world_state : WorldState) : Bool :=
  g.requirements.all fun kc =>
    match lookupEntry world_state.entries kc.1 with
    | some value => compare_values kc.2 value
    | none => false

/-- The per-requirement summation loop of `WorldState::distance_to_goal`;
`none` propagates the `Value::distance` panic on a tag mismatch.  The
source's `.sum::<u64>()` adds in `u64`, which wraps in release builds, so
each accumulation step is reduced modulo `2^64`; every summand is itself a
`u64` (below `2^64`), so the result is the mathematical sum modulo `2^64`. -/
def distReq (ws : WorldState) : List (String × Assert) → Option Nat
  | [] => some 0
  | (key, goal_val) :: rest =>
    match
      (match lookupEntry ws.entries key with
       | some state_val => state_val.distance goal_val.value
       | none => some 1),
      distReq ws rest with
    | some d, some s => some ((d + s) % 18446744073709551616)
    | _, _ => none

/-- `WorldState::distance_to_goal` from `src/world_state.rs`: the wrapping
`u64` sum of the per-requirement distances. -/
def WorldState.distance_to_goal (ws : WorldState) (goal : Goal) : Option Nat :=
  distReq ws goal.requirements

/-- `Node` from `src/plan/node.rs` (the `Effect` variant's tuple is
flattened into three fields). -/
inductive Node where
  | State (ws : WorldState)
  | Effect (key : String) (eff : Effect) (ws : WorldState)
deriving DecidableEq

/-- `Node::state`. -/
def Node.state : Node → WorldState
  | .State ws => ws
  | .Effect _ _ ws => ws

/-- `heuristic` from `src/plan/planner.rs`. -/
def heuristic (node : Node) (goal : Goal) : Option Nat :=
  node.state.distance_to_goal goal

/-- `is_goal` from `src/plan/planner.rs`: total, an absent requirement key
just makes the test false. -/
def is_goal (node : Node) (goal : Goal) : Bool :=
  goal.requirements.all fun kc =>
    match lookupEntry node.state.entries kc.1 with
    | some val => compare_values kc.2 val
    | none => false

/-- The action-by-action body of `successors` from `src/plan/planner.rs`:
preconditions are checked first (their panic propagates), actions whose
preconditions fail or that have no effect are skipped, and a surviving
action contributes a transition node built by applying its mutations. -/
def succAux (state : WorldState) : List Action → Option (List (Node × Nat))
  | [] => some []
  | action :: rest =>
    match action.check_preconditions state with
    | none => none
    | some ok =>
      if !ok then succAux state rest
      else
        match action.effect with
        | none => succAux state rest
        | some effect =>
          match applyMutations state effect.mutations with
          | none => none
          | some new_state =>
            (succAux state rest).map
              fun tail => (Node.Effect action.key effect new_state, effect.cost) :: tail

/-- `successors` from `src/plan/planner.rs` (collected to a list, as
`make_plan_with_strategy` does). -/
def successors (node : Node) (actions : List Action) : Option (List (Node × Nat)) :=
  succAux node.state actions

/-- A frontier element of the search: the reversed path of nodes reaching
the current node (head), its accumulated cost `g`, and its priority
`f = g + h`. -/
structure Entry where
  revPath : List Node
  g : Nat
  f : Nat
deriving DecidableEq

/-- Outcome of a planning call: `panic` models an aborted run (authoring
error), `fuelOut` is exhaustion of the explicit fuel that stands in for the
unbounded Rust loop, `noPlan` is the frontier running empty, and `found`
carries the node path and total cost. -/
inductive AStarOut where
  | panic
  | fuelOut
  | noPlan
  | found (path : List Node) (cost : Nat)
deriving DecidableEq

/-- Removes the leftmost entry of minimal `f` from the frontier (ties go to
the earliest-inserted entry, the spec's discovery-order tie-break). -/
def popMin : List Entry → Option (Entry × List Entry)
  | [] => none
  | e :: rest =>
    match popMin rest with
    | none => some (e, [])
    | some (e', rest') => if e.f ≤ e'.f then some (e, rest) else some (e', e :: rest')

/-- Turns the successor list of an expanded entry into frontier entries,
evaluating the heuristic on each new node (`none` propagates its panic). -/
def pushSuccs (goal : Goal) (e : Entry) : List (Node × Nat) → Option (List Entry)
  | [] => some []
  | (n, c) :: rest =>
    match heuristic n goal with
    | none => none
    | some h =>
      (pushSuccs goal e rest).map
        fun tail => Entry.mk (n :: e.revPath) (e.g + c) (e.g + c + h) :: tail

/-- Modelled from the spec: the A* loop of the external `pathfinding`
crate's `astar`, which the repository calls but does not contain.
Per §4.4 of the spec it pops the frontier entry of least `g + h`
(discovery-order tie-break), discards entries whose node was already
expanded (content-based deduplication), returns the full node path and
accumulated cost when the popped node satisfies the goal, expands it
through `successors` otherwise, and reports `noPlan` when the frontier
runs empty.  `fuel` bounds the iteration count; the Rust loop is
unbounded. -/
def astarLoop (actions : List Action) (goal : Goal) :
    Nat → List Node → List Entry → AStarOut
  | 0, _, _ => .fuelOut
  | fuel + 1, visited, frontier =>
    match popMin frontier with
    | none => .noPlan
    | some (e, rest) =>
      match e.revPath with
      | [] => .noPlan
      | cur :: _ =>
        if visited.contains cur then astarLoop actions goal fuel visited rest
        else if is_goal cur goal then .found e.revPath.reverse e.g
        else
          match successors cur actions with
          | none => .panic
          | some succs =>
            match pushSuccs goal e succs with
            | none => .panic
            | some newEntries =>
              astarLoop actions goal fuel (cur :: visited) (rest ++ newEntries)

/-- `make_plan` / `make_plan_with_strategy` (strategy `StartToGoal`) from
`src/plan/planner.rs`, the `astar` call being modelled from the spec as
`astarLoop`.  The start node's heuristic is evaluated up front, as the
crate does when seeding the frontier. -/
def make_plan (fuel : Nat) (start : WorldState) (actions : List Action)
    (goal : Goal) : AStarOut :=
  match heuristic (Node.State start) goal with
  | none => .panic
  | some h => astarLoop actions goal fuel [] [Entry.mk [Node.State start] 0 h]

/-- `get_effects_from_plan` from `src/plan/planner.rs`: keeps the
`(action_key, effect, resulting_state)` triples of the transition nodes,
dropping `State` nodes. -/
def get_effects_from_plan : List Node → List (String × Effect × WorldState)
  | [] => []
  | Node.State _ :: rest => get_effects_from_plan rest
  | Node.Effect action_key effect state :: rest =>
    (action_key, effect, state) :: get_effects_from_plan rest

/-- The `Effect` components of a plan, in path order. -/
def extractEffects (plan : List Node) : List Effect :=
  (get_effects_from_plan plan).map fun t => t.2.1

/-- Sum of the costs of a list of effects. -/
def sumCosts : List Effect → Nat
  | [] => 0
  | e :: rest => e.cost + sumCosts rest

/-- Replays a list of effects over a state, applying each effect's
mutations in list order; `none` propagates a mutation panic. -/
def replayEffects : WorldState → List Effect → Option WorldState
  | ws, [] => some ws
  | ws, e :: rest =>
    match applyMutations ws e.mutations with
    | none => none
    | some ws' => replayEffects ws' rest

/-- Executes an action sequence from a state: each action must have an
effect and its preconditions must evaluate true at its turn; anything else
(including a precondition panic) is `none`. -/
def runActions : WorldState → List Action → Option WorldState
  | ws, [] => some ws
  | ws, a :: rest =>
    match a.check_preconditions ws, a.effect with
    | some true, some eff =>
      match applyMutations ws eff.mutations with
      | none => none
      | some ws' => runActions ws' rest
    | _, _ => none

/-- Total cost of an action sequence (effect-less actions count zero). -/
def costOfActions (actions : List Action) : Nat :=
  actions.foldr (fun a s => (match a.effect with | some e => e.cost | none => 0) + s) 0

/-- Decidable statement that every goal requirement whose variable is
present in the state binds a value of the same tag as the state's. -/
def tagsOk (ws : WorldState) : List (String × Assert) → Bool
  | [] => true
  | (k, c) :: rest =>
    (match lookupEntry ws.entries k with
     | some v => sameTag v c.value
     | none => true) && tagsOk ws rest

/-- Total version of `Value.distance` (0 on the tag-mismatch cases that
`Value.distance` leaves undefined), used to state heuristic sums. -/
def distT (a b : Value) : Nat := (Value.distance a b).getD 0

/-- The claim's formula for the heuristic: per-requirement `Value`
distance when the variable is present, a fixed penalty of 1 when absent,
summed in the unbounded naturals (the program's `u64` sum instead wraps
modulo `2^64`). -/
def goalDistSum (ws : WorldState) : List (String × Assert) → Nat
  | [] => 0
  | (k, c) :: rest =>
    (match lookupEntry ws.entries k with
     | some v => distT v c.value
     | none => 1) + goalDistSum ws rest

/-- Invariant carried by every frontier entry: its reversed path is
nonempty, bottoms out at the initial-state node, replaying its extracted
effects from the start state lands exactly on its head node's state, and
its `g` is the sum of those effects' costs. -/
def EntryInv (start : WorldState) (e : Entry) : Prop :=
  ∃ cur t, e.revPath = cur :: t ∧
    (cur :: t).getLast? = some (Node.State start) ∧
    replayEffects start (extractEffects (cur :: t).reverse) = some cur.state ∧
    e.g = sumCosts (extractEffects (cur :: t).reverse)

/-- Start state of the spec's one-step eat scenario. -/
def wStart : WorldState := ⟨[("is_hungry", .Bool true)]⟩

/-- Effect of the eat action: clears hunger at cost 1. -/
def wEff : Effect := ⟨[.Set "is_hungry" (.Bool false)], 1⟩

/-- The eat action: no preconditions. -/
def eatAct : Action := ⟨"eat", [], some wEff⟩

/-- Goal of the eat scenario: hunger gone. -/
def wGoal : Goal := ⟨[("is_hungry", .Equals (.Bool false))]⟩

/-- Final state of the eat scenario. -/
def wFinal : WorldState := ⟨[("is_hungry", .Bool false)]⟩

/-- Node path of the plan found in the eat scenario. -/
def wPath : List Node := [.State wStart, .Effect "eat" wEff wFinal]

/-- Start state of the inadmissible-heuristic scenario: `x = 0`, `y = 0`. -/
def cStart : WorldState := ⟨[("x", .I64 0), ("y", .I64 0)]⟩

/-- Effect jumping `x` straight to 10 at cost 5. -/
def jumpEff : Effect := ⟨[.Set "x" (.I64 10)], 5⟩

/-- Expensive one-step action reaching the goal. -/
def jumpAct : Action := ⟨"jump", [], some jumpEff⟩

/-- Effect setting `y` to 1 at cost 1. -/
def prepEff : Effect := ⟨[.Set "y" (.I64 1)], 1⟩

/-- First half of the cheap two-step route. -/
def prepAct : Action := ⟨"prep", [], some prepEff⟩

/-- Effect setting `x` to 10 at cost 1. -/
def finishEff : Effect := ⟨[.Set "x" (.I64 10)], 1⟩

/-- Second half of the cheap route, requiring `y = 1`. -/
def finishAct : Action := ⟨"finish", [("y", .Equals (.I64 1))], some finishEff⟩

/-- Action list of the inadmissible-heuristic scenario. -/
def cActions : List Action := [jumpAct, prepAct, finishAct]

/-- Goal of the inadmissible-heuristic scenario: `x = 10`. -/
def cGoal : Goal := ⟨[("x", .Equals (.I64 10))]⟩

/-- State after `jump`. -/
def cJumpState : WorldState := ⟨[("x", .I64 10), ("y", .I64 0)]⟩

/-- The suboptimal plan that the search returns in that scenario. -/
def cPath : List Node := [.State cStart, .Effect "jump" jumpEff cJumpState]

/-- Goal-satisfying state reached by the cheap route `prep; finish`. -/
def cAlt : WorldState := ⟨[("x", .I64 10), ("y", .I64 1)]⟩

/-- Action whose second precondition references the absent variable `b`
while the first already fails. -/
def shortCircuitAct : Action :=
  ⟨"sc", [("a", .Equals (.I64 1)), ("b", .Equals (.I64 2))], none⟩

/-- State for the precondition short-circuit scenario: only `a` present,
with a value failing the first precondition. -/
def shortCircuitState : WorldState := ⟨[("a", .I64 0)]⟩

/-- Action with a single precondition on the variable `a`. -/
def missingKeyAct : Action := ⟨"mk", [("a", .Equals (.I64 1))], none⟩

/-- The empty world state. -/
def emptyState : WorldState := ⟨[]⟩

/-- One-entry state used by the mutation witnesses. -/
def w7 : WorldState := ⟨[("a", .I64 1)]⟩

/-- State used by the heuristic witness. -/
def w8 : WorldState := ⟨[("x", .I64 3)]⟩

/-- Goal used by the heuristic witness: `x >= 10` and absent `z = true`. -/
def g8 : Goal := ⟨[("x", .GreaterThanEquals (.I64 10)), ("z", .Equals (.Bool true))]⟩

/-- State for the heuristic-overflow scenario: `a = b = c = 0`. -/
def cState8 : WorldState :=
  ⟨[("a", .I64 0), ("b", .I64 0), ("c", .I64 0)]⟩

/-- Goal whose three requirements each lie at `Value` distance `2^63` from
`cState8` (the bound is `i64::MIN`), so the mathematical distance sum is
`3 * 2^63`, above the `u64` range. -/
def cGoal8 : Goal :=
  ⟨[("a", .Equals (.I64 (-9223372036854775808))),
    ("b", .Equals (.I64 (-9223372036854775808))),
    ("c", .Equals (.I64 (-9223372036854775808)))]⟩


theorem lookupEntry_insert_self (k : String) (v : Value) (l : List (String × Value)) :
    lookupEntry (insertEntry k v l) k = some v := by
  induction l with
  | nil => simp [insertEntry, lookupEntry]
  | cons hd tl ih =>
    obtain ⟨k', v'⟩ := hd
    by_cases h2 : k = k'
    · subst h2
      by_cases h1 : strLt k k = true
      · simp [insertEntry, h1, lookupEntry]
      · simp [insertEntry, h1, lookupEntry]
    · by_cases h1 : strLt k k' = true
      · simp [insertEntry, h1, lookupEntry]
      · have h3 : ¬ k' = k := fun hh => h2 hh.symm
        simp [insertEntry, h1, h2, lookupEntry, h3, ih]

theorem lookupEntry_insert_ne (k : String) (v : Value) (k' : String)
    (l : List (String × Value)) (h : k' ≠ k) :
    lookupEntry (insertEntry k v l) k' = lookupEntry l k' := by
  have hkk : ¬ k = k' := fun hh => h hh.symm
  induction l with
  | nil => simp [insertEntry, lookupEntry, hkk]
  | cons hd tl ih =>
    obtain ⟨k0, v0⟩ := hd
    by_cases h1 : strLt k k0 = true
    · simp [insertEntry, h1, lookupEntry, hkk]
    · by_cases h2 : k = k0
      · subst h2
        simp [insertEntry, h1, lookupEntry, hkk]
      · simp [insertEntry, h1, h2, lookupEntry, ih]

theorem sameTag_distance_isSome (a b : Value) (h : sameTag a b = true) :
    Value.distance a b = some (distT a b) := by
  cases a <;> cases b <;> simp_all [sameTag, Value.distance, distT]

theorem checkPre_true_iff (ws : WorldState) (l : List (String × Assert)) :
    checkPre ws l = some true ↔
      ∀ kc ∈ l, ∃ v, lookupEntry ws.entries kc.1 = some v ∧
        compare_values kc.2 v = true := by
  induction l with
  | nil => simp [checkPre]
  | cons hd tl ih =>
    obtain ⟨k, c⟩ := hd
    cases hl : lookupEntry ws.entries k with
    | none =>
      simp only [checkPre, hl]
      constructor
      · intro hfalse; exact absurd hfalse (by simp)
      · intro hall
        obtain ⟨w, hw, _⟩ := hall (k, c) (List.mem_cons_self _ _)
        rw [hl] at hw
        exact absurd hw (by simp)
    | some v =>
      by_cases hc : compare_values c v = true
      · simp [checkPre, hl, hc, ih]
      · simp only [checkPre, hl, if_neg hc]
        constructor
        · intro hfalse; exact absurd hfalse (by simp)
        · intro hall
          obtain ⟨w, hw, hcw⟩ := hall (k, c) (List.mem_cons_self _ _)
          rw [hl] at hw
          injection hw with hw'
          subst hw'
          exact absurd hcw hc

theorem checkPre_none_reached (ws : WorldState) (pre : List (String × Assert))
    (k : String) (c : Assert) (rest : List (String × Assert))
    (hpre : ∀ kc ∈ pre, ∃ v, lookupEntry ws.entries kc.1 = some v ∧
      compare_values kc.2 v = true)
    (hmiss : lookupEntry ws.entries k = none) :
    checkPre ws (pre ++ (k, c) :: rest) = none := by
  induction pre with
  | nil => simp [checkPre, hmiss]
  | cons hd tl ih =>
    obtain ⟨k0, c0⟩ := hd
    obtain ⟨v0, hv0, hc0⟩ := hpre (k0, c0) (List.mem_cons_self _ _)
    have hrec := ih fun kc hkc => hpre kc (List.mem_cons_of_mem _ hkc)
    simpa [checkPre, hv0, hc0] using hrec

theorem goalElem_iff (ws : WorldState) (kc : String × Assert) :
    (match lookupEntry ws.entries kc.1 with
     | some val => compare_values kc.2 val
     | none => false) = true ↔
      ∃ v, lookupEntry ws.entries kc.1 = some v ∧ compare_values kc.2 v = true := by
  cases hl : lookupEntry ws.entries kc.1 <;> simp [hl]

/-- C4 (corrected): evaluating an ordering assertion (`GreaterThan`,
`GreaterThanEquals`, `LessThan`, `LessThanEquals`) on a value whose tag
differs from the bound value's tag does NOT fail: the derived `PartialOrd`
of `Value` orders different variants by declaration order, so
`compare_values (Assert::GreaterThan(Bool(false)), I64(0))` returns the
ordinary boolean `true` (the `I64` discriminant exceeds the `Bool` one),
refuting the claim that cross-tag ordering is an error condition. -/
theorem compare_values_cross_tag_counterexample :
    compare_values (.GreaterThan (.Bool false)) (.I64 0) = true ∧
    compare_values (.GreaterThanEquals (.Bool false)) (.I64 0) = true ∧
    compare_values (.LessThan (.Bool false)) (.I64 0) = false ∧
    compare_values (.LessThanEquals (.Bool false)) (.I64 0) = false := by
  decide

/-- C4 (amended): for every assertion whose bound value's tag differs from
the evaluated value's tag, `Equals` returns false and `NotEquals` true,
while the four ordering assertions return ordinary booleans determined by
the variants' declaration-order discriminants (`Bool` < `I64` < `F64`);
no cross-tag evaluation fails. -/
theorem compare_values_cross_tag (a b : Value) (h : sameTag a b = false) :
    compare_values (.Equals b) a = false ∧
    compare_values (.NotEquals b) a = true ∧
    compare_values (.GreaterThan b) a = decide (discr b < discr a) ∧
    compare_values (.GreaterThanEquals b) a = decide (discr b < discr a) ∧
    compare_values (.LessThan b) a = decide (discr a < discr b) ∧
    compare_values (.LessThanEquals b) a = decide (discr a < discr b) := by
  cases a <;> cases b <;>
    simp_all [sameTag, compare_values, valueLt, valueLe, discr]

/-- Witness for C4's amended theorem at the concrete cross-tag pair
`I64(0)` versus `Bool(false)`. -/
theorem compare_values_cross_tag_witness :
    compare_values (.Equals (.Bool false)) (.I64 0) = false ∧
    compare_values (.NotEquals (.Bool false)) (.I64 0) = true := by
  have h := compare_values_cross_tag (.I64 0) (.Bool false) (by decide)
  exact ⟨h.1, h.2.1⟩

/-- C5 (corrected): the short-circuiting `all` of `check_preconditions`
returns `false` as soon as a precondition evaluates false, so a later
precondition whose variable is absent from the state is never looked up:
here the referenced variable `b` is absent, yet the call returns
`some false` instead of panicking, refuting the claim that any absent
referenced precondition variable causes a fatal failure. -/
theorem check_preconditions_counterexample :
    Action.check_preconditions shortCircuitAct shortCircuitState = some false ∧
    ("b", Assert.Equals (.I64 2)) ∈ shortCircuitAct.preconditions ∧
    lookupEntry shortCircuitState.entries "b" = none := by
  refine ⟨by decide, by decide, by decide⟩

/-- C5 (amended): `check_preconditions` returns `some true` iff every
precondition finds its variable and its assertion evaluates true on the
found value; and it fails fatally (`none`, the panic) whenever the scan,
proceeding in order with all earlier preconditions evaluating true,
reaches a precondition whose variable is absent from the state. -/
theorem check_preconditions_spec (a : Action) (ws : WorldState) :
    (a.check_preconditions ws = some true ↔
      ∀ kc ∈ a.preconditions, ∃ v, lookupEntry ws.entries kc.1 = some v ∧
        compare_values kc.2 v = true) ∧
    (∀ pre k c rest, a.preconditions = pre ++ (k, c) :: rest →
      (∀ kc ∈ pre, ∃ v, lookupEntry ws.entries kc.1 = some v ∧
        compare_values kc.2 v = true) →
      lookupEntry ws.entries k = none →
      a.check_preconditions ws = none) := by
  constructor
  · exact checkPre_true_iff ws a.preconditions
  · intro pre k c rest hsplit hpre hmiss
    show checkPre ws a.preconditions = none
    rw [hsplit]
    exact checkPre_none_reached ws pre k c rest hpre hmiss

/-- Witness for C5's amended theorem: a single precondition on the absent
variable `a`, evaluated against the empty state, panics. -/
theorem check_preconditions_spec_witness :
    Action.check_preconditions missingKeyAct emptyState = none :=
  (check_preconditions_spec missingKeyAct emptyState).2
    [] "a" (Assert.Equals (.I64 1)) [] rfl (by simp) (by decide)

/-- C6 (confirmed): the goal test is the total boolean conjunction of the
goal's requirements: it is true iff every requirement's variable is
present in the node's state and its assertion evaluates true there — an
absent variable simply yields `false` (no panic path exists, unlike
precondition checking) — and it agrees with `Goal::is_satisfied_by`. -/
theorem is_goal_spec (n : Node) (g : Goal) :
    (is_goal n g = true ↔
      ∀ kc ∈ g.requirements, ∃ v, lookupEntry n.state.entries kc.1 = some v ∧
        compare_values kc.2 v = true) ∧
    is_goal n g = g.is_satisfied_by n.state := by
  constructor
  · simp only [is_goal, List.all_eq_true]
    exact ⟨fun h kc hkc => (goalElem_iff n.state kc).1 (h kc hkc),
           fun h kc hkc => (goalElem_iff n.state kc).2 (h kc hkc)⟩
  · rfl

/-- C7 (confirmed): `Increment`/`Decrement` on a key absent from the state
return the state entirely unchanged, while `Set` always inserts or
overwrites the key, leaving every other key's binding untouched. -/
theorem apply_mutator_spec (ws : WorldState) (k : String) :
    (∀ v, lookupEntry ws.entries k = none →
      apply_mutator ws (.Increment k v) = some ws ∧
      apply_mutator ws (.Decrement k v) = some ws) ∧
    (∀ w, apply_mutator ws (.Set k w) = some ⟨insertEntry k w ws.entries⟩ ∧
      lookupEntry (insertEntry k w ws.entries) k = some w ∧
      ∀ k', k' ≠ k →
        lookupEntry (insertEntry k w ws.entries) k' = lookupEntry ws.entries k') := by
  constructor
  · intro v hmiss
    constructor <;> simp [apply_mutator, hmiss]
  · intro w
    refine ⟨rfl, lookupEntry_insert_self k w ws.entries, ?_⟩
    intro k' hne
    exact lookupEntry_insert_ne k w k' ws.entries hne

/-- Witness for C7 at a concrete one-entry state and the absent key `b`. -/
theorem apply_mutator_spec_witness :
    apply_mutator w7 (.Increment "b" (.I64 3)) = some w7 ∧
    apply_mutator w7 (.Decrement "b" (.I64 3)) = some w7 ∧
    apply_mutator w7 (.Set "b" (.I64 3)) = some ⟨insertEntry "b" (.I64 3) w7.entries⟩ ∧
    lookupEntry (insertEntry "b" (.I64 3) w7.entries) "b" = some (.I64 3) := by
  have h1 := (apply_mutator_spec w7 "b").1 (.I64 3) (by decide)
  have h2 := (apply_mutator_spec w7 "b").2 (.I64 3)
  exact ⟨h1.1, h1.2, h2.1, h2.2.1⟩

theorem distReq_eq_sum (ws : WorldState) (l : List (String × Assert))
    (h : tagsOk ws l = true) :
    distReq ws l = some (goalDistSum ws l % 18446744073709551616) := by
  induction l with
  | nil => simp [distReq, goalDistSum]
  | cons hd tl ih =>
    obtain ⟨k, c⟩ := hd
    simp only [tagsOk, Bool.and_eq_true] at h
    obtain ⟨h1, h2⟩ := h
    cases hl : lookupEntry ws.entries k with
    | none =>
      simp only [distReq, goalDistSum, hl, ih h2, Option.some.injEq]
      omega
    | some v =>
      rw [hl] at h1
      have hsome := sameTag_distance_isSome v c.value h1
      simp only [distReq, goalDistSum, hl, hsome, ih h2, Option.some.injEq]
      omega

/-- C8 (corrected): the source's `distance_to_goal` sums the
per-requirement distances with `.sum::<u64>()`, which wraps in release
builds; with three requirements each at `Value` distance `2^63` the
program's heuristic is `2^63` while the claimed mathematical sum is
`3 * 2^63`, refuting the claim that the heuristic equals that sum. -/
theorem heuristic_overflow_counterexample :
    heuristic (Node.State cState8) cGoal8 = some 9223372036854775808 ∧
    goalDistSum (Node.State cState8).state cGoal8.requirements =
      27670116110564327424 ∧
    (9223372036854775808 : Nat) ≠ 27670116110564327424 := by
  exact ⟨by decide, by decide, by decide⟩

/-- C8 (amended): whenever every goal requirement whose variable is
present in the node's state binds a value of the state value's tag, the
A* heuristic equals the sum, over the goal's requirements, of the `Value`
distance between the state's value and the assertion's bound value when
the variable is present and a fixed penalty of 1 when it is absent,
reduced modulo `2^64` (the `u64` wrap of the source's sum); in
particular it is the exact sum whenever that sum is below `2^64`. -/
theorem heuristic_spec (n : Node) (g : Goal)
    (h : tagsOk n.state g.requirements = true) :
    heuristic n g =
      some (goalDistSum n.state g.requirements % 18446744073709551616) ∧
    (goalDistSum n.state g.requirements < 18446744073709551616 →
      heuristic n g = some (goalDistSum n.state g.requirements)) := by
  have hmain := distReq_eq_sum n.state g.requirements h
  refine ⟨hmain, fun hlt => ?_⟩
  rw [Nat.mod_eq_of_lt hlt] at hmain
  exact hmain

/-- Witness for C8's amended theorem: state `x = 3` against the goal
`x >= 10 ∧ z = true` gives distance 7 for the present `x` plus penalty 1
for the absent `z`, a sum of 8, far below the wrap. -/
theorem heuristic_spec_witness :
    heuristic (Node.State w8) g8 = some (goalDistSum (Node.State w8).state g8.requirements) ∧
    goalDistSum (Node.State w8).state g8.requirements = 8 :=
  ⟨(heuristic_spec (Node.State w8) g8 (by decide)).2 (by decide), by decide⟩

/-- C9 (corrected): at `a = i64::MAX` and `b = i64::MIN` the subtraction
`a - b` does not fit in `i64`, so `distance` cannot return the exact
absolute difference `2^64 - 1`: under wrapping (release) semantics it
returns 1 (a debug build would abort on the overflow instead), refuting
the claim for these representable inputs. -/
theorem distance_counterexample :
    Value.distance (.I64 9223372036854775807) (.I64 (-9223372036854775808)) = some 1 ∧
    ((9223372036854775807 : Int) - (-9223372036854775808)).natAbs =
      18446744073709551615 ∧
    (1 : Nat) ≠ 18446744073709551615 := by
  refine ⟨by decide, by decide, by decide⟩

/-- C9 (amended): for booleans the distance is 0 when equal and 1
otherwise; for 64-bit signed integers whose difference fits in the `i64`
range it is the exact absolute difference `|a - b|`; for floats it is the
absolute difference truncated toward zero under the saturating conversion
to the unsigned 64-bit distance unit; and it is symmetric on every
same-tagged pair. -/
theorem distance_spec :
    (∀ x y : Bool, Value.distance (.Bool x) (.Bool y) =
      some (if x = y then 0 else 1)) ∧
    (∀ i j : Int, -9223372036854775808 ≤ i - j → i - j < 9223372036854775808 →
      Value.distance (.I64 i) (.I64 j) = some (i - j).natAbs) ∧
    (∀ p q : Rat, Value.distance (.F64 p) (.F64 q) =
      some (min (Rat.floor |p - q|).toNat 18446744073709551615)) ∧
    (∀ a b : Value, sameTag a b = true →
      Value.distance a b = Value.distance b a) := by
  refine ⟨fun x y => rfl, ?_, fun p q => rfl, ?_⟩
  · intro i j h1 h2
    have hw : wrap64 (i - j) = i - j := by unfold wrap64; omega
    simp [Value.distance, hw]
  · intro a b h
    cases a <;> cases b <;> try simp [sameTag] at h
    · rename_i x y
      by_cases hxy : x = y
      · subst hxy; rfl
      · have hyx : ¬ y = x := fun hh => hxy hh.symm
        simp [Value.distance, hxy, hyx]
    · rename_i i j
      have hsym : (wrap64 (i - j)).natAbs = (wrap64 (j - i)).natAbs := by
        unfold wrap64; omega
      simp [Value.distance, hsym]
    · rename_i p q
      simp [Value.distance, abs_sub_comm]

/-- Witness for C9's amended theorem at in-range integers and a concrete
boolean and symmetric pair. -/
theorem distance_spec_witness :
    Value.distance (.I64 5) (.I64 (-3)) = some ((5 : Int) - (-3)).natAbs ∧
    Value.distance (.Bool true) (.Bool false) = some 1 ∧
    Value.distance (.I64 5) (.I64 (-3)) = Value.distance (.I64 (-3)) (.I64 5) := by
  refine ⟨distance_spec.2.1 5 (-3) (by decide) (by decide), ?_,
    distance_spec.2.2.2 (.I64 5) (.I64 (-3)) (by decide)⟩
  have h := distance_spec.1 true false
  simpa using h

/-- C10 (confirmed): `Effect::with_mutation(k, m)` appends exactly one
mutation, whose target key is `k` regardless of the key embedded in `m`,
whose operation kind and payload are those of `m`, and the cost is kept. -/
theorem with_mutation_spec (e : Effect) (k : String) (m : Mutation) :
    ∃ m', (e.with_mutation k m).mutations = e.mutations ++ [m'] ∧
      (e.with_mutation k m).cost = e.cost ∧
      m'.key = k ∧ m'.sameOp m = true := by
  cases m with
  | Set k0 v => exact ⟨.Set k v, rfl, rfl, rfl, by simp [Mutation.sameOp]⟩
  | Delete k0 => exact ⟨.Delete k, rfl, rfl, rfl, rfl⟩
  | Increment k0 v => exact ⟨.Increment k v, rfl, rfl, rfl, by simp [Mutation.sameOp]⟩
  | Decrement k0 v => exact ⟨.Decrement k v, rfl, rfl, rfl, by simp [Mutation.sameOp]⟩

theorem get_effects_append (l1 l2 : List Node) :
    get_effects_from_plan (l1 ++ l2) =
      get_effects_from_plan l1 ++ get_effects_from_plan l2 := by
  induction l1 with
  | nil => rfl
  | cons hd tl ih => cases hd <;> simp [get_effects_from_plan, ih]

theorem extractEffects_append (l1 l2 : List Node) :
    extractEffects (l1 ++ l2) = extractEffects l1 ++ extractEffects l2 := by
  simp [extractEffects, get_effects_append]

theorem extractEffects_effect_node (key : String) (eff : Effect) (ws : WorldState) :
    extractEffects [Node.Effect key eff ws] = [eff] := rfl

theorem sumCosts_append (l : List Effect) (e : Effect) :
    sumCosts (l ++ [e]) = sumCosts l + e.cost := by
  induction l with
  | nil => simp [sumCosts]
  | cons hd tl ih => simp [sumCosts, ih]; omega

theorem replayEffects_append (ws w : WorldState) (l1 l2 : List Effect)
    (h : replayEffects ws l1 = some w) :
    replayEffects ws (l1 ++ l2) = replayEffects w l2 := by
  induction l1 generalizing ws with
  | nil =>
    simp only [replayEffects, Option.some.injEq] at h
    subst h
    rfl
  | cons hd tl ih =>
    cases hm : applyMutations ws hd.mutations with
    | none => simp [replayEffects, hm] at h
    | some ws' =>
      simp only [replayEffects, hm] at h
      simp only [List.cons_append, replayEffects, hm]
      exact ih ws' h

theorem popMin_mem (l : List Entry) (e : Entry) (rest : List Entry)
    (h : popMin l = some (e, rest)) : e ∈ l ∧ ∀ x ∈ rest, x ∈ l := by
  induction l generalizing e rest with
  | nil => simp [popMin] at h
  | cons hd tl ih =>
    cases hp : popMin tl with
    | none =>
      simp only [popMin, hp, Option.some.injEq, Prod.mk.injEq] at h
      obtain ⟨he, hr⟩ := h
      subst he
      subst hr
      exact ⟨List.mem_cons_self _ _, by simp⟩
    | some pr =>
      obtain ⟨e', rest'⟩ := pr
      obtain ⟨ih1, ih2⟩ := ih e' rest' hp
      by_cases hf : hd.f ≤ e'.f
      · simp only [popMin, hp, if_pos hf, Option.some.injEq, Prod.mk.injEq] at h
        obtain ⟨he, hr⟩ := h
        subst he
        subst hr
        exact ⟨List.mem_cons_self _ _, fun x hx => List.mem_cons_of_mem _ hx⟩
      · simp only [popMin, hp, if_neg hf, Option.some.injEq, Prod.mk.injEq] at h
        obtain ⟨he, hr⟩ := h
        subst he
        subst hr
        refine ⟨List.mem_cons_of_mem _ ih1, ?_⟩
        intro x hx
        rcases List.mem_cons.mp hx with hx | hx
        · subst hx; exact List.mem_cons_self _ _
        · exact List.mem_cons_of_mem _ (ih2 x hx)

theorem succAux_mem (st : WorldState) (actions : List Action)
    (succs : List (Node × Nat)) (h : succAux st actions = some succs) :
    ∀ p ∈ succs, ∃ key eff ws', p = (Node.Effect key eff ws', eff.cost) ∧
      applyMutations st eff.mutations = some ws' := by
  induction actions generalizing succs with
  | nil =>
    simp only [succAux, Option.some.injEq] at h
    subst h
    simp
  | cons a rest ih =>
    cases hc : a.check_preconditions st with
    | none => simp [succAux, hc] at h
    | some ok =>
      cases ok with
      | false =>
        simp only [succAux, hc, Bool.not_false, if_true] at h
        exact ih succs h
      | true =>
        cases heff : a.effect with
        | none =>
          simp only [succAux, hc, heff, Bool.not_true, Bool.false_eq_true,
            if_false] at h
          exact ih succs h
        | some eff =>
          cases hm : applyMutations st eff.mutations with
          | none => simp [succAux, hc, heff, hm] at h
          | some new_state =>
            simp only [succAux, hc, heff, hm, Bool.not_true,
              Bool.false_eq_true, if_false] at h
            rw [Option.map_eq_some'] at h
            obtain ⟨tail, htail, hsuccs⟩ := h
            subst hsuccs
            intro p hp
            rcases List.mem_cons.mp hp with hp | hp
            · subst hp
              exact ⟨a.key, eff, new_state, rfl, hm⟩
            · exact ih tail htail p hp

theorem pushSuccs_mem (goal : Goal) (e : Entry) (succs : List (Node × Nat))
    (entries : List Entry) (h : pushSuccs goal e succs = some entries) :
    ∀ e' ∈ entries, ∃ n c hh, (n, c) ∈ succs ∧
      e' = Entry.mk (n :: e.revPath) (e.g + c) (e.g + c + hh) := by
  induction succs generalizing entries with
  | nil =>
    simp only [pushSuccs, Option.some.injEq] at h
    subst h
    simp
  | cons nc rest ih =>
    obtain ⟨n, c⟩ := nc
    cases hh : heuristic n goal with
    | none => simp [pushSuccs, hh] at h
    | some hv =>
      simp only [pushSuccs, hh] at h
      rw [Option.map_eq_some'] at h
      obtain ⟨tail, htail, hentries⟩ := h
      subst hentries
      intro e' he'
      rcases List.mem_cons.mp he' with he' | he'
      · subst he'
        exact ⟨n, c, hv, List.mem_cons_self _ _, rfl⟩
      · obtain ⟨n0, c0, h0, hmem, heq⟩ := ih tail htail e' he'
        exact ⟨n0, c0, h0, List.mem_cons_of_mem _ hmem, heq⟩

theorem newEntries_inv (start : WorldState) (actions : List Action) (goal : Goal)
    (e : Entry) (cur : Node) (t : List Node) (hrev : e.revPath = cur :: t)
    (hinv : EntryInv start e)
    (succs : List (Node × Nat)) (hs : succAux cur.state actions = some succs)
    (entries : List Entry) (hp : pushSuccs goal e succs = some entries) :
    ∀ e' ∈ entries, EntryInv start e' := by
  intro e' he'
  obtain ⟨n, c, hv, hmem, heq⟩ := pushSuccs_mem goal e succs entries hp e' he'
  obtain ⟨key, eff, ws', hpe, happ⟩ := succAux_mem cur.state actions succs hs (n, c) hmem
  obtain ⟨cur0, t0, hrev0, hlast, hreplay, hg⟩ := hinv
  rw [hrev] at hrev0
  injection hrev0 with h1 h2
  subst h1
  subst h2
  rw [Prod.mk.injEq] at hpe
  obtain ⟨hn, hc2⟩ := hpe
  subst hn
  subst hc2
  subst heq
  refine ⟨Node.Effect key eff ws', e.revPath, rfl, ?_, ?_, ?_⟩
  · rw [hrev, List.getLast?_cons_cons]
    exact hlast
  · show replayEffects start
      (extractEffects ((Node.Effect key eff ws' :: e.revPath).reverse)) = some ws'
    rw [hrev, List.reverse_cons, extractEffects_append, extractEffects_effect_node,
      replayEffects_append start cur.state _ [eff] hreplay]
    simp [replayEffects, happ]
  · show e.g + eff.cost =
      sumCosts (extractEffects ((Node.Effect key eff ws' :: e.revPath).reverse))
    rw [hrev, List.reverse_cons, extractEffects_append, extractEffects_effect_node,
      sumCosts_append, ← hg]

theorem astarLoop_found (start : WorldState) (actions : List Action) (goal : Goal) :
    ∀ fuel visited frontier path cost,
      (∀ e ∈ frontier, EntryInv start e) →
      astarLoop actions goal fuel visited frontier = .found path cost →
      ∃ e, EntryInv start e ∧ path = e.revPath.reverse ∧ cost = e.g ∧
        ∃ cur t, e.revPath = cur :: t ∧ is_goal cur goal = true := by
  intro fuel
  induction fuel with
  | zero =>
    intro visited frontier path cost _ h
    simp [astarLoop] at h
  | succ fuel ih =>
    intro visited frontier path cost hinv h
    cases hp : popMin frontier with
    | none => simp [astarLoop, hp] at h
    | some pr =>
      obtain ⟨e, rest⟩ := pr
      obtain ⟨hmem, hsub⟩ := popMin_mem frontier e rest hp
      cases hrev : e.revPath with
      | nil => simp [astarLoop, hp, hrev] at h
      | cons cur t =>
        cases hvis : visited.contains cur with
        | true =>
          simp only [astarLoop, hp, hrev, hvis, if_true] at h
          exact ih visited rest path cost (fun x hx => hinv x (hsub x hx)) h
        | false =>
          cases hgoal : is_goal cur goal with
          | true =>
            simp only [astarLoop, hp, hrev, hvis, hgoal, Bool.false_eq_true,
              if_false, if_true, AStarOut.found.injEq] at h
            obtain ⟨h1, h2⟩ := h
            exact ⟨e, hinv e hmem, by rw [← h1, hrev], h2.symm, cur, t, hrev, hgoal⟩
          | false =>
            cases hsucc : successors cur actions with
            | none =>
              simp only [astarLoop, hp, hrev, hvis, hgoal, Bool.false_eq_true,
                if_false, hsucc] at h
              exact AStarOut.noConfusion h
            | some succs =>
              cases hpush : pushSuccs goal e succs with
              | none =>
                simp only [astarLoop, hp, hrev, hvis, hgoal, Bool.false_eq_true,
                  if_false, hsucc, hpush] at h
                exact AStarOut.noConfusion h
              | some newEntries =>
                simp only [astarLoop, hp, hrev, hvis, hgoal, Bool.false_eq_true,
                  if_false, hsucc, hpush] at h
                have hnew := newEntries_inv start actions goal e cur t hrev
                  (hinv e hmem) succs hsucc newEntries hpush
                refine ih (cur :: visited) (rest ++ newEntries) path cost ?_ h
                intro x hx
                rcases List.mem_append.mp hx with hx | hx
                · exact hinv x (hsub x hx)
                · exact hnew x hx

theorem make_plan_found (fuel : Nat) (start : WorldState) (actions : List Action)
    (goal : Goal) (path : List Node) (cost : Nat)
    (h : make_plan fuel start actions goal = .found path cost) :
    ∃ e, EntryInv start e ∧ path = e.revPath.reverse ∧ cost = e.g ∧
      ∃ cur t, e.revPath = cur :: t ∧ is_goal cur goal = true := by
  cases hh : heuristic (Node.State start) goal with
  | none => simp [make_plan, hh] at h
  | some h0 =>
    simp only [make_plan, hh] at h
    refine astarLoop_found start actions goal fuel [] _ path cost ?_ h
    intro x hx
    rcases List.mem_cons.mp hx with hx | hx
    · subst hx
      exact ⟨Node.State start, [], rfl, rfl, rfl, rfl⟩
    · exact absurd hx (by simp)

/-- C1 (corrected): the heuristic may overestimate (it is not admissible),
so the search can return a plan that is not lowest-cost.  Concretely,
`make_plan` returns the one-step `jump` plan of total cost 5, while the
action sequence `prep; finish` — each step having an effect and its
preconditions holding in turn from the start state — reaches a
goal-satisfying state at total cost 2 < 5. -/
theorem make_plan_not_optimal_counterexample :
    make_plan 3 cStart cActions cGoal = .found cPath 5 ∧
    runActions cStart [prepAct, finishAct] = some cAlt ∧
    is_goal (Node.State cAlt) cGoal = true ∧
    costOfActions [prepAct, finishAct] = 2 ∧ 2 < 5 := by
  exact ⟨by decide, by decide, by decide, by decide, by decide⟩

/-- C1 (amended): any plan returned by `make_plan` is a well-formed
goal-reaching sequence — its path starts at the initial-state node of the
supplied start state and its last node satisfies the goal — but, the
heuristic being potentially overestimating, the returned plan need not be
lowest-cost among all goal-reaching action sequences. -/
theorem make_plan_reaches_goal (fuel : Nat) (start : WorldState)
    (actions : List Action) (goal : Goal) (path : List Node) (cost : Nat)
    (h : make_plan fuel start actions goal = .found path cost) :
    path.head? = some (Node.State start) ∧
    ∃ last, path.getLast? = some last ∧ is_goal last goal = true := by
  obtain ⟨e, hinv, hpath, hcost, cur, t, hrev, hgoal⟩ :=
    make_plan_found fuel start actions goal path cost h
  obtain ⟨cur0, t0, hrev0, hlast, _, _⟩ := hinv
  rw [hrev] at hrev0
  injection hrev0 with h1 h2
  subst h1
  subst h2
  constructor
  · rw [hpath, List.head?_reverse, hrev]
    exact hlast
  · refine ⟨cur, ?_, hgoal⟩
    rw [hpath, List.getLast?_reverse, hrev]
    rfl

/-- Witness for C1's amended theorem on the one-step eat scenario. -/
theorem make_plan_reaches_goal_witness :
    wPath.head? = some (Node.State wStart) ∧
    ∃ last, wPath.getLast? = some last ∧ is_goal last wGoal = true :=
  make_plan_reaches_goal 3 wStart [eatAct] wGoal wPath 1 (by decide)

/-- C2 (confirmed): replaying the effects extracted from a returned plan
(`get_effects_from_plan`, in path order) over the original start state,
each effect's mutations applied in list order, yields exactly the world
state of the last node of the returned path. -/
theorem make_plan_replay (fuel : Nat) (start : WorldState)
    (actions : List Action) (goal : Goal) (path : List Node) (cost : Nat)
    (h : make_plan fuel start actions goal = .found path cost) :
    ∃ last, path.getLast? = some last ∧
      replayEffects start (extractEffects path) = some last.state := by
  obtain ⟨e, hinv, hpath, hcost, cur, t, hrev, hgoal⟩ :=
    make_plan_found fuel start actions goal path cost h
  obtain ⟨cur0, t0, hrev0, hlast, hreplay, _⟩ := hinv
  rw [hrev] at hrev0
  injection hrev0 with h1 h2
  subst h1
  subst h2
  refine ⟨cur, ?_, ?_⟩
  · rw [hpath, List.getLast?_reverse, hrev]
    rfl
  · rw [hpath, hrev]
    exact hreplay

/-- Witness for C2 on the one-step eat scenario. -/
theorem make_plan_replay_witness :
    ∃ last, wPath.getLast? = some last ∧
      replayEffects wStart (extractEffects wPath) = some last.state :=
  make_plan_replay 3 wStart [eatAct] wGoal wPath 1 (by decide)

/-- C3 (confirmed): the total cost returned with a plan is the sum of the
cost fields of the effects carried by the transition nodes of the path
(the initial-state node contributes nothing, being dropped by
`get_effects_from_plan`); the cost lives in the non-negative integers. -/
theorem make_plan_cost (fuel : Nat) (start : WorldState)
    (actions : List Action) (goal : Goal) (path : List Node) (cost : Nat)
    (h : make_plan fuel start actions goal = .found path cost) :
    cost = sumCosts (extractEffects path) := by
  obtain ⟨e, hinv, hpath, hcost, cur, t, hrev, hgoal⟩ :=
    make_plan_found fuel start actions goal path cost h
  obtain ⟨cur0, t0, hrev0, _, _, hg⟩ := hinv
  rw [hrev] at hrev0
  injection hrev0 with h1 h2
  subst h1
  subst h2
  rw [hpath, hrev, hcost]
  exact hg

/-- Witness for C3 on the one-step eat scenario. -/
theorem make_plan_cost_witness :
    (1 : Nat) = sumCosts (extractEffects wPath) :=
  make_plan_cost 3 wStart [eatAct] wGoal wPath 1 (by decide)

end Goap
